import Mathlib

/-!
Verification of `verl/tools/utils/mcp_clients/utils.py`: three token-bucket
rate-limiter variants (`TokenBucket`, `RPMBucket`, `CallBucket`) and the
schema-translation helper `mcp2openai`.

Modelling conventions:
* Python floats are modelled as rationals (`ℚ`); all values appearing in the
  claims are exactly representable.
* `time.time()` readings are passed explicitly: each method takes the current
  wall-clock time `now : ℚ`; the stored `last_update` field stays in the state.
* `threading.Lock` only serialises the critical sections; a single sequential
  trace already captures every interleaving of the counter updates, so the
  lock is not modelled.
* Mutation of `self` is modelled by returning the updated record next to the
  method's return value.
* Python dicts appearing in `mcp2openai` are modelled as association lists
  with dict-style lookup and in-place assignment (replace the value, keep
  the position, of an existing key; append a new key at the end).
-/

/-- State of `TokenBucket`: `rate_limit` (tokens per second), the stored
`tokens` count and the `last_update` timestamp, as set up by `__init__`
and mutated by `acquire`. -/
structure TokenBucket where
  rate_limit : ℚ
  tokens : ℚ
  last_update : ℚ
deriving DecidableEq, Repr

/-- `TokenBucket.__init__(rate_limit)` at wall-clock time `now`:
`self.tokens = rate_limit`, `self.last_update = time.time()`. -/
def TokenBucket.init (rate_limit : ℚ) (now : ℚ) : TokenBucket :=
  { rate_limit := rate_limit, tokens := rate_limit, last_update := now }

/-- `TokenBucket.acquire` at wall-clock time `now`: refill
`tokens = min(rate_limit, tokens + (now - last_update) * rate_limit)`,
set `last_update = now`, then admit (deducting one token) iff `tokens >= 1`.
Returns the updated bucket and the boolean result. -/
def TokenBucket.acquire (b : TokenBucket) (now : ℚ) : TokenBucket × Bool :=
  let new_tokens := (now - b.last_update) * b.rate_limit
  let tokens := min b.rate_limit (b.tokens + new_tokens)
  if 1 ≤ tokens then
    ({ b with tokens := tokens - 1, last_update := now }, true)
  else
    ({ b with tokens := tokens, last_update := now }, false)

/-- Run a sequence of `acquire` calls; each list entry is the non-negative
wall-clock time elapsed since the previous call. Returns the final state. -/
def TokenBucket.run (b : TokenBucket) : List ℚ → TokenBucket
  | [] => b
  | e :: es => TokenBucket.run (b.acquire (b.last_update + e)).1 es

/-- Run a sequence of `acquire` calls (entries are elapsed times) and
collect the boolean results. -/
def TokenBucket.runResults (b : TokenBucket) : List ℚ → List Bool
  | [] => []
  | e :: es =>
    let r := b.acquire (b.last_update + e)
    r.2 :: r.1.runResults es

/-- State of `RPMBucket`: `RPM = rate_limit * 60`, `rate_limit` (per second),
the stored `current_request` budget and `last_update`. -/
structure RPMBucket where
  RPM : ℚ
  rate_limit : ℚ
  current_request : ℚ
  last_update : ℚ
deriving DecidableEq, Repr

/-- `RPMBucket.__init__(rate_limit)` at wall-clock time `now`:
`RPM = rate_limit * 60`, `current_request = RPM`. -/
def RPMBucket.init (rate_limit : ℚ) (now : ℚ) : RPMBucket :=
  { RPM := rate_limit * 60, rate_limit := rate_limit,
    current_request := rate_limit * 60, last_update := now }

/-- `RPMBucket.acquire` at wall-clock time `now`: refill
`current_request = min(RPM, current_request + (now - last_update) * rate_limit)`,
set `last_update = now`, admit iff `current_request >= 1` (the denial branch
additionally prints a diagnostic, an observability effect not modelled). -/
def RPMBucket.acquire (b : RPMBucket) (now : ℚ) : RPMBucket × Bool :=
  let new_request := (now - b.last_update) * b.rate_limit
  let current_request := min b.RPM (b.current_request + new_request)
  if 1 ≤ current_request then
    ({ b with current_request := current_request - 1, last_update := now }, true)
  else
    ({ b with current_request := current_request, last_update := now }, false)

/-- Run a sequence of `RPMBucket.acquire` calls (entries are elapsed times),
returning the final state. -/
def RPMBucket.run (b : RPMBucket) : List ℚ → RPMBucket
  | [] => b
  | e :: es => RPMBucket.run (b.acquire (b.last_update + e)).1 es

/-- Run a sequence of `RPMBucket.acquire` calls (entries are elapsed times)
and collect the boolean results. -/
def RPMBucket.runResults (b : RPMBucket) : List ℚ → List Bool
  | [] => []
  | e :: es =>
    let r := b.acquire (b.last_update + e)
    r.2 :: r.1.runResults es

/-- State of `CallBucket`: `calls_per_minute : int`, `max_calls` and the
stored `calls` budget (floats equal to `calls_per_minute` at construction),
and `last_update`. -/
structure CallBucket where
  calls_per_minute : ℤ
  max_calls : ℚ
  calls : ℚ
  last_update : ℚ
deriving DecidableEq, Repr

/-- `CallBucket.__init__(calls_per_minute)` at wall-clock time `now`:
`max_calls = calls = calls_per_minute` (starts with a full bucket). -/
def CallBucket.init (calls_per_minute : ℤ) (now : ℚ) : CallBucket :=
  { calls_per_minute := calls_per_minute, max_calls := (calls_per_minute : ℚ),
    calls := (calls_per_minute : ℚ), last_update := now }

/-- `CallBucket.acquire` at wall-clock time `now`: refill
`calls = min(max_calls, calls + ((now - last_update) / 60) * calls_per_minute)`,
set `last_update = now`, admit iff `calls >= 1`. -/
def CallBucket.acquire (b : CallBucket) (now : ℚ) : CallBucket × Bool :=
  let minutes_elapsed := (now - b.last_update) / 60
  let new_calls := minutes_elapsed * (b.calls_per_minute : ℚ)
  let calls := min b.max_calls (b.calls + new_calls)
  if 1 ≤ calls then
    ({ b with calls := calls - 1, last_update := now }, true)
  else
    ({ b with calls := calls, last_update := now }, false)

/-- Run a sequence of `CallBucket.acquire` calls (entries are elapsed times),
returning the final state. -/
def CallBucket.run (b : CallBucket) : List ℚ → CallBucket
  | [] => b
  | e :: es => CallBucket.run (b.acquire (b.last_update + e)).1 es

/-- Python `int(x)` on a non-negative float value truncates toward zero. -/
def pyInt (q : ℚ) : ℤ :=
  q.num.tdiv (q.den : ℤ)

/-- `CallBucket.get_remaining_calls` at wall-clock time `now`: computes the
hypothetically refilled budget and returns `int` of it; the method body
contains no assignment to `self`, so the state component of the result is
the input state. -/
def CallBucket.get_remaining_calls (b : CallBucket) (now : ℚ) : ℤ × CallBucket :=
  let minutes_elapsed := (now - b.last_update) / 60
  let new_calls := minutes_elapsed * (b.calls_per_minute : ℚ)
  let current_calls := min b.max_calls (b.calls + new_calls)
  (pyInt current_calls, b)

/-- `CallBucket.get_time_to_next_call` at wall-clock time `now`: returns 0.0
if the stored `calls >= 1`, else 0.0 if the hypothetically refilled budget is
`>= 1`, else `((1 - current_calls) / calls_per_minute) * 60.0` seconds; no
assignment to `self`, so the state component of the result is the input. -/
def CallBucket.get_time_to_next_call (b : CallBucket) (now : ℚ) : ℚ × CallBucket :=
  if 1 ≤ b.calls then (0, b)
  else
    let minutes_elapsed := (now - b.last_update) / 60
    let new_calls := minutes_elapsed * (b.calls_per_minute : ℚ)
    let current_calls := min b.max_calls (b.calls + new_calls)
    if 1 ≤ current_calls then (0, b)
    else
      let calls_needed := 1 - current_calls
      let minutes_needed := calls_needed / (b.calls_per_minute : ℚ)
      (minutes_needed * 60, b)

/-- A JSON-like value, modelling the Python values that may appear inside a
tool's `inputSchema` dict. -/
inductive JVal where
  | null : JVal
  | bool : Bool → JVal
  | num : ℚ → JVal
  | str : String → JVal
  | arr : List JVal → JVal
  | obj : List (String × JVal) → JVal
deriving Repr

/-- A Python dict with string keys, modelled as an association list kept in
insertion order (dicts never hold duplicate keys). -/
abbrev JDict : Type := List (String × JVal)

/-- `d.get(k, None)`-style lookup returning the first binding of `k`. -/
def dictGet (d : JDict) (k : String) : Option JVal :=
  (List.find? (fun p => p.1 == k) d).map (fun p => p.2)

/-- `d[k] = v`: replace the value of an existing key in place (Python dicts
keep the key's insertion position), else append the new key at the end. -/
def dictSet (d : JDict) (k : String) (v : JVal) : JDict :=
  if (List.find? (fun p => p.1 == k) d).isSome then
    List.map (fun p => if p.1 == k then (k, v) else p) d
  else
    d ++ [(k, v)]

/-- Python truthiness of `d.get("required", None)`: `None`, `False`, `0`,
`""`, `[]` and `\x7b\x7d` are falsy, everything else truthy. -/
def truthy : Option JVal → Bool
  | none => false
  | some JVal.null => false
  | some (JVal.bool b) => b
  | some (JVal.num q) => !(q == 0)
  | some (JVal.str s) => !(s == "")
  | some (JVal.arr xs) => !xs.isEmpty
  | some (JVal.obj fs) => !fs.isEmpty

/-- The fields of an `mcp.Tool` that `mcp2openai` reads: `name`,
`description` (optional in the protocol) and the `inputSchema` dict. -/
structure Tool where
  name : String
  description : Option String
  inputSchema : JDict

/-- The `\x7btype, function: \x7bname, description, parameters, strict\x7d\x7d`
dict built by `mcp2openai`, as a record. -/
structure OpenAIFunction where
  name : String
  description : Option String
  parameters : JDict
  strict : Bool

/-- Top level of the dict returned by `mcp2openai`. -/
structure OpenAIFormat where
  type : String
  function : OpenAIFunction

/-- `mcp2openai(mcp_tool)`: builds the OpenAI-format dict with
`parameters` bound to the very `inputSchema` dict of the input tool (no
copy is taken), then, if `parameters.get("required", None)` is falsy,
executes `parameters["required"] = []` — which mutates that shared dict.
The model returns the built dict together with the tool as it stands after
the call, whose `inputSchema` is the same (possibly mutated) dict as the
result's `parameters`. -/
def mcp2openai (mcp_tool : Tool) : OpenAIFormat × Tool :=
  let parameters :=
    if truthy (dictGet mcp_tool.inputSchema "required") then
      mcp_tool.inputSchema
    else
      dictSet mcp_tool.inputSchema "required" (JVal.arr [])
  (⟨"function", ⟨mcp_tool.name, mcp_tool.description, parameters, false⟩⟩,
   { mcp_tool with inputSchema := parameters })

/-- Which of the two read-only `CallBucket` introspection queries to issue. -/
inductive CallQuery where
  | remaining : CallQuery
  | timeToNext : CallQuery

/-- Issue a sequence of introspection queries (each at some wall-clock time),
threading the state through, and return the final state. -/
def CallBucket.runQueries (b : CallBucket) : List (CallQuery × ℚ) → CallBucket
  | [] => b
  | (CallQuery.remaining, now) :: qs =>
    CallBucket.runQueries ((b.get_remaining_calls now).2) qs
  | (CallQuery.timeToNext, now) :: qs =>
    CallBucket.runQueries ((b.get_time_to_next_call now).2) qs

/-! Helper lemmas about single `acquire` steps and runs. -/

theorem TokenBucket.acquire_rate_limit (b : TokenBucket) (now : ℚ) :
    ((b.acquire now).1).rate_limit = b.rate_limit := by
  simp only [TokenBucket.acquire]
  split <;> rfl

theorem TokenBucket.acquire_tokens_bounds (b : TokenBucket) (now : ℚ)
    (hr : 0 ≤ b.rate_limit) (h0 : 0 ≤ b.tokens) (hnow : b.last_update ≤ now) :
    0 ≤ ((b.acquire now).1).tokens ∧ ((b.acquire now).1).tokens ≤ b.rate_limit := by
  have hx : 0 ≤ b.tokens + (now - b.last_update) * b.rate_limit :=
    add_nonneg h0 (mul_nonneg (by linarith) hr)
  have hmin : min b.rate_limit (b.tokens + (now - b.last_update) * b.rate_limit)
      ≤ b.rate_limit := min_le_left _ _
  have hmin0 : 0 ≤ min b.rate_limit (b.tokens + (now - b.last_update) * b.rate_limit) :=
    le_min hr hx
  simp only [TokenBucket.acquire]
  split
  · next h => exact ⟨by simp only; linarith, by simp only; linarith⟩
  · next h => exact ⟨by simp only; linarith, by simp only; linarith⟩

theorem TokenBucket.tb_run_bounds (es : List ℚ) (b : TokenBucket)
    (hr : 0 ≤ b.rate_limit) (h0 : 0 ≤ b.tokens) (hc : b.tokens ≤ b.rate_limit)
    (hes : ∀ e ∈ es, 0 ≤ e) :
    (b.run es).rate_limit = b.rate_limit ∧
      0 ≤ (b.run es).tokens ∧ (b.run es).tokens ≤ b.rate_limit := by
  induction es generalizing b with
  | nil => exact ⟨rfl, h0, hc⟩
  | cons e es ih =>
    have he : 0 ≤ e := hes e (List.mem_cons_self e es)
    have hnow : b.last_update ≤ b.last_update + e := by linarith
    have hb := TokenBucket.acquire_tokens_bounds b (b.last_update + e) hr h0 hnow
    have hrl := TokenBucket.acquire_rate_limit b (b.last_update + e)
    have ihb := ih ((b.acquire (b.last_update + e)).1) (by rw [hrl]; exact hr) hb.1
      (by rw [hrl]; exact hb.2) (fun x hx => hes x (List.mem_cons_of_mem e hx))
    simp only [TokenBucket.run]
    exact ⟨ihb.1.trans hrl, ihb.2.1, ihb.2.2.trans_eq hrl⟩

theorem RPMBucket.rpm_acquire_frame (b : RPMBucket) (now : ℚ) :
    ((b.acquire now).1).RPM = b.RPM ∧ ((b.acquire now).1).rate_limit = b.rate_limit := by
  simp only [RPMBucket.acquire]
  split <;> exact ⟨rfl, rfl⟩

theorem RPMBucket.acquire_request_bounds (b : RPMBucket) (now : ℚ)
    (hR : 0 ≤ b.RPM) (hr : 0 ≤ b.rate_limit) (h0 : 0 ≤ b.current_request)
    (hnow : b.last_update ≤ now) :
    0 ≤ ((b.acquire now).1).current_request ∧
      ((b.acquire now).1).current_request ≤ b.RPM := by
  have hx : 0 ≤ b.current_request + (now - b.last_update) * b.rate_limit :=
    add_nonneg h0 (mul_nonneg (by linarith) hr)
  have hmin : min b.RPM (b.current_request + (now - b.last_update) * b.rate_limit)
      ≤ b.RPM := min_le_left _ _
  have hmin0 : 0 ≤ min b.RPM (b.current_request + (now - b.last_update) * b.rate_limit) :=
    le_min hR hx
  simp only [RPMBucket.acquire]
  split
  · next h => exact ⟨by simp only; linarith, by simp only; linarith⟩
  · next h => exact ⟨by simp only; linarith, by simp only; linarith⟩

theorem RPMBucket.rpm_run_bounds (es : List ℚ) (b : RPMBucket)
    (hR : 0 ≤ b.RPM) (hr : 0 ≤ b.rate_limit) (h0 : 0 ≤ b.current_request)
    (hc : b.current_request ≤ b.RPM) (hes : ∀ e ∈ es, 0 ≤ e) :
    (b.run es).RPM = b.RPM ∧
      0 ≤ (b.run es).current_request ∧ (b.run es).current_request ≤ b.RPM := by
  induction es generalizing b with
  | nil => exact ⟨rfl, h0, hc⟩
  | cons e es ih =>
    have he : 0 ≤ e := hes e (List.mem_cons_self e es)
    have hnow : b.last_update ≤ b.last_update + e := by linarith
    have hb := RPMBucket.acquire_request_bounds b (b.last_update + e) hR hr h0 hnow
    have hfr := RPMBucket.rpm_acquire_frame b (b.last_update + e)
    have ihb := ih ((b.acquire (b.last_update + e)).1) (by rw [hfr.1]; exact hR)
      (by rw [hfr.2]; exact hr) hb.1 (by rw [hfr.1]; exact hb.2)
      (fun x hx => hes x (List.mem_cons_of_mem e hx))
    simp only [RPMBucket.run]
    exact ⟨ihb.1.trans hfr.1, ihb.2.1, ihb.2.2.trans_eq hfr.1⟩

theorem CallBucket.cb_acquire_frame (b : CallBucket) (now : ℚ) :
    ((b.acquire now).1).max_calls = b.max_calls ∧
      ((b.acquire now).1).calls_per_minute = b.calls_per_minute := by
  simp only [CallBucket.acquire]
  split <;> exact ⟨rfl, rfl⟩

theorem CallBucket.acquire_calls_bounds (b : CallBucket) (now : ℚ)
    (hM : 0 ≤ b.max_calls) (hr : 0 ≤ b.calls_per_minute) (h0 : 0 ≤ b.calls)
    (hnow : b.last_update ≤ now) :
    0 ≤ ((b.acquire now).1).calls ∧ ((b.acquire now).1).calls ≤ b.max_calls := by
  have hrq : (0:ℚ) ≤ (b.calls_per_minute : ℚ) := by exact_mod_cast hr
  have hx : 0 ≤ b.calls + (now - b.last_update) / 60 * (b.calls_per_minute : ℚ) :=
    add_nonneg h0 (mul_nonneg (div_nonneg (sub_nonneg.mpr hnow) (by norm_num)) hrq)
  have hmin : min b.max_calls (b.calls + (now - b.last_update) / 60 * (b.calls_per_minute : ℚ))
      ≤ b.max_calls := min_le_left _ _
  have hmin0 :
      0 ≤ min b.max_calls (b.calls + (now - b.last_update) / 60 * (b.calls_per_minute : ℚ)) :=
    le_min hM hx
  simp only [CallBucket.acquire]
  split
  · next h => exact ⟨by simp only; linarith, by simp only; linarith⟩
  · next h => exact ⟨by simp only; linarith, by simp only; linarith⟩

theorem CallBucket.cb_run_bounds (es : List ℚ) (b : CallBucket)
    (hM : 0 ≤ b.max_calls) (hr : 0 ≤ b.calls_per_minute) (h0 : 0 ≤ b.calls)
    (hc : b.calls ≤ b.max_calls) (hes : ∀ e ∈ es, 0 ≤ e) :
    (b.run es).max_calls = b.max_calls ∧
      0 ≤ (b.run es).calls ∧ (b.run es).calls ≤ b.max_calls := by
  induction es generalizing b with
  | nil => exact ⟨rfl, h0, hc⟩
  | cons e es ih =>
    have he : 0 ≤ e := hes e (List.mem_cons_self e es)
    have hnow : b.last_update ≤ b.last_update + e := by linarith
    have hb := CallBucket.acquire_calls_bounds b (b.last_update + e) hM hr h0 hnow
    have hfr := CallBucket.cb_acquire_frame b (b.last_update + e)
    have ihb := ih ((b.acquire (b.last_update + e)).1) (by rw [hfr.1]; exact hM)
      (by rw [hfr.2]; exact hr) hb.1 (by rw [hfr.1]; exact hb.2)
      (fun x hx => hes x (List.mem_cons_of_mem e hx))
    simp only [CallBucket.run]
    exact ⟨ihb.1.trans hfr.1, ihb.2.1, ihb.2.2.trans_eq hfr.1⟩

/-- C1: for every limiter variant constructed with a positive rate, and every
sequence of acquire calls separated by non-negative elapsed times, the stored
budget (`tokens` / `current_request` / `calls`) stays within `[0, capacity]`
after every operation, where the capacity is `rate_limit`, `rate_limit * 60`
and `calls_per_minute` respectively (every prefix of the call sequence). -/
theorem C1_capacity_invariant (r : ℚ) (cpm : ℤ) (t0 : ℚ) (es : List ℚ)
    (hr : 0 < r) (hcpm : 0 < cpm) (hes : ∀ e ∈ es, 0 ≤ e) (n : ℕ) :
    (0 ≤ ((TokenBucket.init r t0).run (es.take n)).tokens ∧
      ((TokenBucket.init r t0).run (es.take n)).tokens ≤ r) ∧
    (0 ≤ ((RPMBucket.init r t0).run (es.take n)).current_request ∧
      ((RPMBucket.init r t0).run (es.take n)).current_request ≤ r * 60) ∧
    (0 ≤ ((CallBucket.init cpm t0).run (es.take n)).calls ∧
      ((CallBucket.init cpm t0).run (es.take n)).calls ≤ (cpm : ℚ)) := by
  have htake : ∀ e ∈ es.take n, 0 ≤ e := fun e he => hes e (List.take_subset n es he)
  have hcq : (0:ℚ) ≤ (cpm : ℚ) := by exact_mod_cast hcpm.le
  have h1 := TokenBucket.tb_run_bounds (es.take n) (TokenBucket.init r t0)
    (by simp [TokenBucket.init]; linarith) (by simp [TokenBucket.init]; linarith)
    (by simp [TokenBucket.init]) htake
  have h2 := RPMBucket.rpm_run_bounds (es.take n) (RPMBucket.init r t0)
    (by simp [RPMBucket.init]; linarith) (by simp [RPMBucket.init]; linarith)
    (by simp [RPMBucket.init]; linarith) (by simp [RPMBucket.init]) htake
  have h3 := CallBucket.cb_run_bounds (es.take n) (CallBucket.init cpm t0)
    (by simp [CallBucket.init]; linarith) (by simp [CallBucket.init]; linarith)
    (by simp [CallBucket.init]; linarith) (by simp [CallBucket.init]) htake
  refine ⟨⟨h1.2.1, ?_⟩, ⟨h2.2.1, ?_⟩, ⟨h3.2.1, ?_⟩⟩
  · simpa [TokenBucket.init] using h1.2.2
  · simpa [RPMBucket.init] using h2.2.2
  · simpa [CallBucket.init] using h3.2.2

/-- Witness for C1 at `rate_limit = 2`, `calls_per_minute = 1`,
elapsed times `[0, 1/2]`, prefix length 2. -/
theorem C1_capacity_invariant_witness :
    (0:ℚ) < 2 ∧ (0:ℤ) < 1 ∧
    ((0 ≤ ((TokenBucket.init 2 0).run (([0, 1/2] : List ℚ).take 2)).tokens ∧
      ((TokenBucket.init 2 0).run (([0, 1/2] : List ℚ).take 2)).tokens ≤ 2) ∧
    (0 ≤ ((RPMBucket.init 2 0).run (([0, 1/2] : List ℚ).take 2)).current_request ∧
      ((RPMBucket.init 2 0).run (([0, 1/2] : List ℚ).take 2)).current_request ≤ 2 * 60) ∧
    (0 ≤ ((CallBucket.init 1 0).run (([0, 1/2] : List ℚ).take 2)).calls ∧
      ((CallBucket.init 1 0).run (([0, 1/2] : List ℚ).take 2)).calls ≤ ((1:ℤ) : ℚ))) :=
  ⟨by norm_num, by norm_num,
    C1_capacity_invariant 2 1 0 [0, 1/2] (by norm_num) (by norm_num) (by norm_num) 2⟩

/-- C4: a `TokenBucket` with `rate_limit = 2` starts with 2.0 tokens; two
immediate `acquire()` calls return true, a third immediate call returns
false, and after 0.5 seconds a fourth call returns true. -/
theorem C4_saturation_example :
    (TokenBucket.init 2 0).tokens = 2 ∧
      (TokenBucket.init 2 0).runResults [0, 0, 0, 1/2] = [true, true, false, true] := by
  constructor
  · rfl
  · norm_num [TokenBucket.runResults, TokenBucket.acquire, TokenBucket.init]

/-- `acquire` on a `TokenBucket` whose `rate_limit` is below 1 always
denies: the refilled token count is clamped to at most `rate_limit < 1`. -/
theorem TokenBucket.acquire_denies_of_rate_lt_one (b : TokenBucket) (now : ℚ)
    (h : b.rate_limit < 1) : (b.acquire now).2 = false := by
  simp only [TokenBucket.acquire]
  split
  · next h1 =>
    exact absurd (h1.trans (min_le_left _ _)) (by linarith)
  · rfl

/-- C10: a `TokenBucket` constructed with `0 < rate_limit < 1` denies every
request: all the results of any sequence of `acquire` calls, whatever the
elapsed times, are `false`. -/
theorem C10_fractional_rate_never_admits (r t0 : ℚ) (es : List ℚ)
    (hr0 : 0 < r) (hr1 : r < 1) :
    (TokenBucket.init r t0).runResults es = List.replicate es.length false := by
  suffices h : ∀ es (b : TokenBucket), b.rate_limit < 1 →
      b.runResults es = List.replicate es.length false by
    exact h es (TokenBucket.init r t0) hr1
  intro es
  induction es with
  | nil => intro b _; rfl
  | cons e es ih =>
    intro b hb
    simp only [TokenBucket.runResults, List.length_cons, List.replicate_succ,
      List.cons.injEq]
    exact ⟨TokenBucket.acquire_denies_of_rate_lt_one b _ hb,
      ih _ (by rw [TokenBucket.acquire_rate_limit]; exact hb)⟩

/-- Witness for C10 at `rate_limit = 1/2`, elapsed times `[0, 100]`. -/
theorem C10_fractional_rate_never_admits_witness :
    (0:ℚ) < 1/2 ∧ (1:ℚ)/2 < 1 ∧
      (TokenBucket.init (1/2) 0).runResults [0, 100] =
        List.replicate ([0, 100] : List ℚ).length false :=
  ⟨by norm_num, by norm_num,
    C10_fractional_rate_never_admits (1/2) 0 [0, 100] (by norm_num) (by norm_num)⟩

/-- C2 fails as stated: a denied `acquire` does NOT leave the bucket
unchanged. Starting from `TokenBucket(rate_limit=2)` with its two tokens
consumed, a denied call 1/10 s later still commits the refill and advances
`last_update`, so the stored state changes. -/
theorem C2_denial_changes_state_counterexample :
    (((((TokenBucket.init 2 0).acquire 0).1).acquire 0).1.acquire (1/10)).2 = false ∧
      (((((TokenBucket.init 2 0).acquire 0).1).acquire 0).1.acquire (1/10)).1
        ≠ ((((TokenBucket.init 2 0).acquire 0).1).acquire 0).1 := by
  norm_num [TokenBucket.init, TokenBucket.acquire, TokenBucket.mk.injEq]

/-- C2 amended: at each call the bucket first commits the refill
`fresh = min(capacity, stored + elapsed * rate)` and sets
`last_update = now`; if `acquire` returns true exactly one unit is deducted
from that post-refill value, and if it returns false no unit is deducted —
the stored budget equals the post-refill value (the refill and the
`last_update` advance are committed either way). Stated for all three
variants. -/
theorem C2_admission_consistency_amended (b : TokenBucket) (p : RPMBucket)
    (c : CallBucket) (now : ℚ) :
    (((b.acquire now).2 = true →
        ((b.acquire now).1).tokens
          = min b.rate_limit (b.tokens + (now - b.last_update) * b.rate_limit) - 1) ∧
      ((b.acquire now).2 = false →
        ((b.acquire now).1).tokens
          = min b.rate_limit (b.tokens + (now - b.last_update) * b.rate_limit)) ∧
      ((b.acquire now).1).last_update = now) ∧
    (((p.acquire now).2 = true →
        ((p.acquire now).1).current_request
          = min p.RPM (p.current_request + (now - p.last_update) * p.rate_limit) - 1) ∧
      ((p.acquire now).2 = false →
        ((p.acquire now).1).current_request
          = min p.RPM (p.current_request + (now - p.last_update) * p.rate_limit)) ∧
      ((p.acquire now).1).last_update = now) ∧
    (((c.acquire now).2 = true →
        ((c.acquire now).1).calls
          = min c.max_calls
              (c.calls + (now - c.last_update) / 60 * (c.calls_per_minute : ℚ)) - 1) ∧
      ((c.acquire now).2 = false →
        ((c.acquire now).1).calls
          = min c.max_calls
              (c.calls + (now - c.last_update) / 60 * (c.calls_per_minute : ℚ))) ∧
      ((c.acquire now).1).last_update = now) := by
  refine ⟨?_, ?_, ?_⟩
  · simp only [TokenBucket.acquire]
    split
    · exact ⟨fun _ => rfl, fun h => by simp at h, rfl⟩
    · exact ⟨fun h => by simp at h, fun _ => rfl, rfl⟩
  · simp only [RPMBucket.acquire]
    split
    · exact ⟨fun _ => rfl, fun h => by simp at h, rfl⟩
    · exact ⟨fun h => by simp at h, fun _ => rfl, rfl⟩
  · simp only [CallBucket.acquire]
    split
    · exact ⟨fun _ => rfl, fun h => by simp at h, rfl⟩
    · exact ⟨fun h => by simp at h, fun _ => rfl, rfl⟩

/-- Witness for C2 amended: the admitted first call on a fresh
`TokenBucket(2)`, `RPMBucket(1)` and `CallBucket(1)` deducts one unit from
the post-refill value. -/
theorem C2_admission_consistency_amended_witness :
    ((TokenBucket.init 2 0).acquire 0).2 = true ∧
      (((TokenBucket.init 2 0).acquire 0).1).tokens
        = min (TokenBucket.init 2 0).rate_limit
            ((TokenBucket.init 2 0).tokens
              + (0 - (TokenBucket.init 2 0).last_update)
                  * (TokenBucket.init 2 0).rate_limit) - 1 := by
  have h := (C2_admission_consistency_amended (TokenBucket.init 2 0)
    (RPMBucket.init 1 0) (CallBucket.init 1 0) 0).1.1
  have ht : ((TokenBucket.init 2 0).acquire 0).2 = true := by
    norm_num [TokenBucket.init, TokenBucket.acquire]
  exact ⟨ht, h ht⟩

theorem RPMBucket.runResults_append (b : RPMBucket) (l1 l2 : List ℚ) :
    b.runResults (l1 ++ l2) = b.runResults l1 ++ (b.run l1).runResults l2 := by
  induction l1 generalizing b with
  | nil => rfl
  | cons e l1 ih =>
    simp only [List.cons_append, RPMBucket.runResults, RPMBucket.run, List.append_eq,
      List.append_assoc, ih]

/-- An `acquire` call with zero elapsed time on a budget with
`1 ≤ current_request ≤ RPM` is admitted and just decrements the budget. -/
theorem RPMBucket.acquire_immediate (b : RPMBucket)
    (hle : b.current_request ≤ b.RPM) (h1 : 1 ≤ b.current_request) :
    b.acquire (b.last_update + 0)
      = ({ b with current_request := b.current_request - 1 }, true) := by
  simp only [RPMBucket.acquire, add_zero, sub_self, zero_mul]
  rw [min_eq_right hle, if_pos h1]

theorem RPMBucket.immediate_run (n : ℕ) (b : RPMBucket)
    (hle : b.current_request ≤ b.RPM) (hn : (n : ℚ) ≤ b.current_request) :
    b.runResults (List.replicate n 0) = List.replicate n true ∧
      b.run (List.replicate n 0)
        = { b with current_request := b.current_request - (n : ℚ) } := by
  induction n generalizing b with
  | zero =>
    refine ⟨rfl, ?_⟩
    simp only [RPMBucket.run, Nat.cast_zero, sub_zero]
  | succ n ih =>
    push_cast at hn
    have h1 : 1 ≤ b.current_request := by
      have hn0 : (0:ℚ) ≤ (n:ℚ) := by positivity
      linarith
    have hstep := RPMBucket.acquire_immediate b hle h1
    have hle1 : ({ b with current_request := b.current_request - 1 } :
        RPMBucket).current_request
        ≤ ({ b with current_request := b.current_request - 1 } : RPMBucket).RPM := by
      show b.current_request - 1 ≤ b.RPM
      linarith
    have hn1 : ((n : ℕ) : ℚ) ≤ ({ b with current_request := b.current_request - 1 } :
        RPMBucket).current_request := by
      show (n : ℚ) ≤ b.current_request - 1
      linarith
    have ihb := ih { b with current_request := b.current_request - 1 } hle1 hn1
    simp only [List.replicate_succ, RPMBucket.runResults, RPMBucket.run, hstep,
      List.cons.injEq, true_and]
    refine ⟨ihb.1, ?_⟩
    rw [ihb.2]
    have hfield : ({ b with current_request := b.current_request - 1 } :
        RPMBucket).current_request - (n : ℚ)
        = b.current_request - ((n + 1 : ℕ) : ℚ) := by
      show b.current_request - 1 - (n : ℚ) = _
      push_cast
      ring
    rw [hfield]

/-- C5: `RPMBucket(rate_limit=1)` starts with a budget of 60; sixty
`acquire()` calls in immediate succession all return true and the 61st
immediate call returns false. -/
theorem C5_per_minute_scaling_example :
    (RPMBucket.init 1 0).current_request = 60 ∧
      (RPMBucket.init 1 0).runResults (List.replicate 60 0 ++ [0])
        = List.replicate 60 true ++ [false] := by
  have h := RPMBucket.immediate_run 60 (RPMBucket.init 1 0)
    (by norm_num [RPMBucket.init]) (by norm_num [RPMBucket.init])
  refine ⟨by norm_num [RPMBucket.init], ?_⟩
  rw [RPMBucket.runResults_append, h.1, h.2]
  norm_num [RPMBucket.init, RPMBucket.runResults, RPMBucket.acquire, min_def]

/-- C6: for a tool whose input schema has no `required` key, `mcp2openai`
returns exactly the OpenAI-format value with `type = "function"`, `name` and
`description` copied verbatim, `parameters` equal to the input schema with
`required` set to the empty list, and `strict = false`. -/
theorem C6_translation_defaults_required (name : String) (description : Option String)
    (schema : JDict) (h : dictGet schema "required" = none) :
    (mcp2openai ⟨name, description, schema⟩).1
      = ⟨"function",
          ⟨name, description, schema ++ [("required", JVal.arr [])], false⟩⟩ := by
  have hfind : List.find? (fun p => p.1 == "required") schema = none := by
    unfold dictGet at h
    exact Option.map_eq_none'.mp h
  simp [mcp2openai, h, truthy, dictSet, hfind]

/-- Witness for C6 at the descriptor
`\x7bname:"x", description:"d", input_schema:\x7btype:"object"\x7d\x7d`. -/
theorem C6_translation_defaults_required_witness :
    dictGet [("type", JVal.str "object")] "required" = none ∧
      (mcp2openai ⟨"x", some "d", [("type", JVal.str "object")]⟩).1
        = ⟨"function",
            ⟨"x", some "d",
              [("type", JVal.str "object")] ++ [("required", JVal.arr [])], false⟩⟩ :=
  ⟨rfl, C6_translation_defaults_required "x" (some "d") [("type", JVal.str "object")] rfl⟩

/-- C9: if the input schema already binds `required` to a non-empty sequence,
the translated `parameters` still bind `required` to that same sequence. -/
theorem C9_idempotent_on_normalized (t : Tool) (xs : List JVal)
    (hx : dictGet t.inputSchema "required" = some (JVal.arr xs)) (hne : xs ≠ []) :
    dictGet ((mcp2openai t).1).function.parameters "required"
      = some (JVal.arr xs) := by
  have htr : truthy (some (JVal.arr xs)) = true := by
    cases xs with
    | nil => exact absurd rfl hne
    | cons a l => rfl
  simp [mcp2openai, hx, htr]

/-- Witness for C9 at a schema with `required = ["a"]`. -/
theorem C9_idempotent_on_normalized_witness :
    dictGet [("required", JVal.arr [JVal.str "a"])] "required"
        = some (JVal.arr [JVal.str "a"]) ∧
      ([JVal.str "a"] : List JVal) ≠ [] ∧
      dictGet ((mcp2openai ⟨"x", some "d",
            [("required", JVal.arr [JVal.str "a"])]⟩).1).function.parameters "required"
        = some (JVal.arr [JVal.str "a"]) :=
  ⟨rfl, by simp,
    C9_idempotent_on_normalized ⟨"x", some "d", [("required", JVal.arr [JVal.str "a"])]⟩
      [JVal.str "a"] rfl (by simp)⟩

/-- C3 fails as stated: `mcp2openai` is not free of side effects on its
input. `parameters` is bound to the very `inputSchema` dict of the tool, so
when the schema has no truthy `required` key the assignment
`parameters["required"] = []` mutates the tool's own schema: for the
descriptor `\x7bname:"x", description:"d", input_schema:\x7btype:"object"\x7d\x7d`
the schema grows from one entry to two, so the tool after the call differs
from the tool before it. -/
theorem C3_translation_mutates_counterexample :
    ((mcp2openai ⟨"x", some "d", [("type", JVal.str "object")]⟩).2).inputSchema.length
        = 2 ∧
      (⟨"x", some "d", [("type", JVal.str "object")]⟩ : Tool).inputSchema.length = 1 ∧
      (mcp2openai ⟨"x", some "d", [("type", JVal.str "object")]⟩).2
        ≠ ⟨"x", some "d", [("type", JVal.str "object")]⟩ := by
  have h2 : ((mcp2openai ⟨"x", some "d",
      [("type", JVal.str "object")]⟩).2).inputSchema.length = 2 := by
    simp [mcp2openai, truthy, dictGet, dictSet]
  refine ⟨h2, rfl, fun hEq => ?_⟩
  rw [hEq] at h2
  simp at h2

/-- C3 amended: the result of `mcp2openai` is a function of the input tool
alone, and the call leaves the descriptor unchanged when the schema's
`required` key is truthy; when `required` is absent or falsy the input
schema object itself is mutated — `required` is set to the empty list in
place — and the returned `parameters` alias that same mutated dict. -/
theorem C3_translation_frame_amended (t : Tool) :
    (truthy (dictGet t.inputSchema "required") = true → (mcp2openai t).2 = t) ∧
      (truthy (dictGet t.inputSchema "required") = false →
        (mcp2openai t).2
          = { t with inputSchema := dictSet t.inputSchema "required" (JVal.arr []) }) ∧
      ((mcp2openai t).2).inputSchema = ((mcp2openai t).1).function.parameters := by
  refine ⟨fun h => ?_, fun h => ?_, rfl⟩
  · simp [mcp2openai, h]
  · simp [mcp2openai, h]

/-- Witness for C3 amended at a tool whose schema has a truthy `required`. -/
theorem C3_translation_frame_amended_witness :
    truthy (dictGet ([("required", JVal.arr [JVal.str "a"])] : JDict) "required")
        = true ∧
      (mcp2openai ⟨"x", some "d", [("required", JVal.arr [JVal.str "a"])]⟩).2
        = ⟨"x", some "d", [("required", JVal.arr [JVal.str "a"])]⟩ :=
  ⟨rfl,
    (C3_translation_frame_amended
      ⟨"x", some "d", [("required", JVal.arr [JVal.str "a"])]⟩).1 rfl⟩

/-- C7: for a `CallBucket` state with a positive `calls_per_minute` (so
`max_calls = calls_per_minute ≥ 1`, as set by the constructor) queried at a
time not before `last_update`, `get_time_to_next_call` returns 0.0 exactly
when the refilled-but-unmutated budget is at least 1, and otherwise returns
`((1 - current) / calls_per_minute) * 60.0` seconds. -/
theorem C7_time_to_next_call (b : CallBucket) (now : ℚ)
    (hcpm : 0 < b.calls_per_minute) (hmax : b.max_calls = (b.calls_per_minute : ℚ))
    (hnow : b.last_update ≤ now) :
    ((b.get_time_to_next_call now).1)
      = if 1 ≤ min b.max_calls
            (b.calls + (now - b.last_update) / 60 * (b.calls_per_minute : ℚ)) then 0
        else (1 - min b.max_calls
            (b.calls + (now - b.last_update) / 60 * (b.calls_per_minute : ℚ)))
          / (b.calls_per_minute : ℚ) * 60 := by
  have hc1 : (1:ℚ) ≤ (b.calls_per_minute : ℚ) := by exact_mod_cast hcpm
  simp only [CallBucket.get_time_to_next_call]
  split
  · next h =>
    have hnn : 0 ≤ (now - b.last_update) / 60 * (b.calls_per_minute : ℚ) :=
      mul_nonneg (div_nonneg (by linarith) (by norm_num)) (by linarith)
    rw [if_pos (le_min (by rw [hmax]; linarith) (by linarith))]
  · next h =>
    split <;> rfl

/-- Witness for C7 at the bucket state `calls_per_minute = 1`, `max_calls = 1`,
`calls = 0`, `last_update = 0`, queried at time 0 (answer: 60 seconds). -/
theorem C7_time_to_next_call_witness :
    (0:ℤ) < (⟨1, 1, 0, 0⟩ : CallBucket).calls_per_minute ∧
      ((⟨1, 1, 0, 0⟩ : CallBucket).get_time_to_next_call 0).1
        = if 1 ≤ min (⟨1, 1, 0, 0⟩ : CallBucket).max_calls
              ((⟨1, 1, 0, 0⟩ : CallBucket).calls
                + (0 - (⟨1, 1, 0, 0⟩ : CallBucket).last_update) / 60
                    * ((⟨1, 1, 0, 0⟩ : CallBucket).calls_per_minute : ℚ)) then 0
          else (1 - min (⟨1, 1, 0, 0⟩ : CallBucket).max_calls
              ((⟨1, 1, 0, 0⟩ : CallBucket).calls
                + (0 - (⟨1, 1, 0, 0⟩ : CallBucket).last_update) / 60
                    * ((⟨1, 1, 0, 0⟩ : CallBucket).calls_per_minute : ℚ)))
            / ((⟨1, 1, 0, 0⟩ : CallBucket).calls_per_minute : ℚ) * 60 :=
  ⟨by norm_num,
    C7_time_to_next_call ⟨1, 1, 0, 0⟩ 0 (by norm_num) (by norm_num) (le_refl 0)⟩

theorem CallBucket.get_time_to_next_call_state (b : CallBucket) (now : ℚ) :
    (b.get_time_to_next_call now).2 = b := by
  simp only [CallBucket.get_time_to_next_call]
  split
  · rfl
  · split <;> rfl

/-- C8: the two introspection queries are read-only: any sequence of
`get_remaining_calls` / `get_time_to_next_call` calls leaves the
`CallBucket` state exactly as it was, so a subsequent `acquire` behaves as
if the queries had never been made. -/
theorem C8_readonly_introspection (b : CallBucket) (qs : List (CallQuery × ℚ))
    (now : ℚ) :
    b.runQueries qs = b ∧ (b.runQueries qs).acquire now = b.acquire now := by
  have h : ∀ qs (b : CallBucket), CallBucket.runQueries b qs = b := by
    intro qs
    induction qs with
    | nil => intro b; rfl
    | cons q qs ih =>
      intro b
      obtain ⟨cq, tq⟩ := q
      cases cq with
      | remaining => exact (ih ((b.get_remaining_calls tq).2)).trans rfl
      | timeToNext =>
        exact (ih ((b.get_time_to_next_call tq).2)).trans
          (CallBucket.get_time_to_next_call_state b tq)
  exact ⟨h qs b, by rw [h qs b]⟩
